import Mathlib

/-!
Verification of the fhfa house-price-index library.

The Go package under study stores quarterly FHFA house price indices per
geography (an `HPIseries` per geo key, an `HPIdata` per geography class) and
offers quarter-code arithmetic (`NextQtr`, `QtrDiff`, `QtrsOK`), binary-search
lookup (`DateIndex`, `Index`), continuity-checked append, deep copy, and a
tiered best-geography resolver (`Best`).

Modelling conventions:
- Go `int` is modelled as `Int`; Go integer division truncates toward zero and
  is modelled by `godiv` (`Int.tdiv`).
- Go `float32`/`float64` index values are modelled as `ℚ`; the properties
  proved here only move values around or compare them for equality.
- A Go function that can panic (out-of-range slice indexing, explicit `panic`)
  is modelled with an outcome type `GoRes` whose `fatal` constructor stands for
  the panic; `err` is a returned (recoverable) `error`, `ok` a normal result.
- Go slices are modelled as lists, Go maps as association lists in insertion
  order (Go map iteration order is unspecified; the insertion order is one
  admissible order).
- Go strings are `String`; `strconv.ParseInt` / `strconv.ParseFloat` are
  external standard-library calls, modelled by executable parsers
  (`parseInt10`, `parseFloat64`) that accept plain decimal forms.
-/

/-- Error values returned by the library, one constructor per distinct
`fmt.Errorf` site relevant to the verified operations. -/
inductive HErr where
  /-- NewHPIseries: "dates and indx don't agree". -/
  | lenMismatch
  /-- NewHPIseries and HPIseries.Append: "dates don't increment by quarter"
      (the spec's DiscontinuousAppend). -/
  | datesDontIncrement
  /-- HPIseries.DateIndex: "date too large" (the spec's DateOutOfRange). -/
  | dateTooLarge
  /-- HPIseries.DateIndex: "date too small" (the spec's DateOutOfRange). -/
  | dateTooSmall
  /-- HPIdata.Geo: "geo %s not found". -/
  | geoNotFound (geo : String)
  /-- HPIdata.Append: "geoLevel not the same in append". -/
  | geoLevelMismatch
  /-- HPIdata.Append: "cannot find geo %s in append data" (GeoNotFound). -/
  | geoNotFoundInAppend (geo : String)
  /-- Best: "invalid series" (the spec's InvalidArguments). -/
  | invalidSeries
  /-- Best: "geo/dt not found in Best" (the spec's NoMatch). -/
  | noMatch
  deriving DecidableEq

/-- Outcome of a Go call: a normal value, a returned `error`, or a fatal
runtime failure (panic). -/
inductive GoRes (α : Type) where
  | ok (val : α)
  | err (e : HErr)
  | fatal
  deriving DecidableEq

/-- GoRes.isErr is true exactly on a returned (recoverable) error. -/
def GoRes.isErr {α : Type} : GoRes α → Bool
  | .err _ => true
  | _ => false

/-- Go integer division: truncation toward zero. -/
def godiv (a b : Int) : Int :=
  Int.tdiv a b

/-- Go slice indexing `xs[i]` with an `int` index: `none` models the
out-of-range panic (negative or too large). -/
def getI? {α : Type} (xs : List α) (i : Int) : Option α :=
  if i < 0 then none else xs.get? i.toNat

/-- NextQtr advances dt (CCYYQ) by 1 quarter.  From the source: panics
(modelled as `none`) when `yr < 1960 || qtr < 1 || qtr > 4`; note the source
places no upper bound on the year here. -/
def NextQtr (dt : Int) : Option Int :=
  let yr := godiv dt 10
  let qtr := dt - 10 * yr
  if yr < 1960 ∨ qtr < 1 ∨ qtr > 4 then
    none
  else
    let qtr2 := qtr + 1
    if qtr2 = 5 then some (10 * (yr + 1) + 1) else some (10 * yr + qtr2)

/-- stepQtr is the unguarded successor arithmetic that `NextQtr` performs once
its range guard has passed (quarter + 1, rolling quarter 5 over to quarter 1 of
the next year).  Used to state claims about quarter succession. -/
def stepQtr (dt : Int) : Int :=
  let yr := godiv dt 10
  let qtr := dt - 10 * yr
  if qtr + 1 = 5 then 10 * (yr + 1) + 1 else 10 * yr + (qtr + 1)

/-- QtrDiff returns the number of quarters between dt0 (CCYYQ) and dt1 (CCYYQ).
From the source: the operands are swapped first when `dt1 < dt0`, so the result
is orientation-normalized. -/
def QtrDiff (dt0 dt1 : Int) : Int :=
  let p := if dt1 < dt0 then (dt1, dt0) else (dt0, dt1)
  let yr0 := godiv p.1 10
  let yr1 := godiv p.2 10
  let qtr0 := p.1 - 10 * yr0
  let qtr1 := p.2 - 10 * yr1
  4 * (yr1 - yr0) + qtr1 - qtr0

/-- QtrsOK checks that the elements of dt increment 1 quarter at a time
(adjacent `QtrDiff` equal to 1). -/
def QtrsOK : List Int → Bool
  | [] => true
  | [_] => true
  | dt0 :: dt1 :: rest => if QtrDiff dt0 dt1 ≠ 1 then false else QtrsOK (dt1 :: rest)

/-- searchInts models `sort.SearchInts` from the Go standard library by its
contract: on an ascending slice it returns the smallest index holding a value
`≥ x`, or the length when there is none. -/
def searchInts (a : List Int) (x : Int) : Nat :=
  a.findIdx fun v => x ≤ v

/-- goCopy models the result of the Go builtin `copy(dst, src)`: the first
`min (length dst) (length src)` positions of `dst` receive the values of
`src`, the rest of `dst` is unchanged, and `dst` keeps its length. -/
def goCopy {α : Type} (dst src : List α) : List α :=
  src.take dst.length ++ dst.drop src.length

/-- HPIseries holds the HPI data for a single geo value: display name, geo
code, parallel date and index arrays, and the last (date, value) pair recorded
at construction time (the "last anchor", untouched by Append). -/
structure HPIseries where
  geoName : String
  geoCode : String
  dates : List Int
  indx : List ℚ
  lastDt : Int
  lastIndx : ℚ
  deriving DecidableEq

/-- NewHPIseries validates the (dates, indx) pair and builds a series whose
anchor is the final element of each array. -/
def NewHPIseries (geoName geoCode : String) (dates : List Int) (indx : List ℚ) :
    GoRes HPIseries :=
  if dates.length = 0 ∨ dates.length ≠ indx.length then .err .lenMismatch
  else if QtrsOK dates = false then .err .datesDontIncrement
  else
    match getI? dates ((dates.length : Int) - 1), getI? indx ((indx.length : Int) - 1) with
    | some ld, some li => .ok ⟨geoName, geoCode, dates, indx, ld, li⟩
    | _, _ => .fatal

/-- Append appends (dts, indx) to h.  From the source: the continuity check
compares `dts[0]` with `h.lastDt` (the construction-time anchor, which Append
itself never updates) using the orientation-normalized `QtrDiff`, and checks
`QtrsOK dts`; reading `dts[0]` of an empty `dts` panics. -/
def HPIseries.Append (h : HPIseries) (dts : List Int) (indx : List ℚ) :
    GoRes HPIseries :=
  match getI? dts 0 with
  | none => .fatal
  | some d0 =>
    if QtrDiff d0 h.lastDt ≠ 1 ∨ QtrsOK dts = false then .err .datesDontIncrement
    else .ok { h with dates := h.dates ++ dts, indx := h.indx ++ indx }

/-- DateIndex returns the index in h.dates of the target date dt, or of the
largest stored date below dt when dt is in range but absent.  From the source:
it reads `h.dates[len(h.dates)-1]` and `h.dates[0]` unguarded (fatal on an
empty series), then runs `sort.SearchInts` and decrements on a non-exact
match. -/
def HPIseries.DateIndex (h : HPIseries) (dt : Int) : GoRes Int :=
  match getI? h.dates ((h.dates.length : Int) - 1) with
  | none => .fatal
  | some last =>
    if dt > last then .err .dateTooLarge
    else
      match getI? h.dates 0 with
      | none => .fatal
      | some first =>
        if dt < first then .err .dateTooSmall
        else
          match getI? h.dates ((searchInts h.dates dt : Nat) : Int) with
          | none => .fatal
          | some v =>
            if v ≠ dt then .ok (((searchInts h.dates dt : Nat) : Int) - 1)
            else .ok ((searchInts h.dates dt : Nat) : Int)

/-- Index returns the house price index at date dt (CCYYQ). -/
def HPIseries.Index (h : HPIseries) (dt : Int) : GoRes ℚ :=
  match HPIseries.DateIndex h dt with
  | .fatal => .fatal
  | .err e => .err e
  | .ok i =>
    match getI? h.indx i with
    | none => .fatal
    | some v => .ok v

/-- Change returns the ratio of the index at dtEnd to the index at dtStart,
propagating either lookup's failure. -/
def HPIseries.Change (h : HPIseries) (dtStart dtEnd : Int) : GoRes ℚ :=
  match HPIseries.Index h dtStart with
  | .fatal => .fatal
  | .err e => .err e
  | .ok hpiS =>
    match HPIseries.Index h dtEnd with
    | .fatal => .fatal
    | .err e => .err e
    | .ok hpiE => .ok (hpiE / hpiS)

/-- Data returns the data.  From the source: the destination slices are the
zero-valued (nil) named results, so the builtin `copy` copies zero elements
and both returned lists are empty. -/
def HPIseries.Data (h : HPIseries) : List Int × List ℚ :=
  (goCopy [] h.dates, goCopy [] h.indx)

/-- Copy returns a copy of h, taking its arrays from `Data`. -/
def HPIseries.Copy (h : HPIseries) : HPIseries :=
  { geoName := h.geoName
    geoCode := h.geoCode
    dates := (HPIseries.Data h).1
    indx := (HPIseries.Data h).2
    lastDt := h.lastDt
    lastIndx := h.lastIndx }

/-- Last returns the date and index value of the construction-time anchor,
unchanged by Append. -/
def HPIseries.Last (h : HPIseries) : Int × ℚ :=
  (h.lastDt, h.lastIndx)

/-- HPIdata manages all the series at one geographic level; the map from geo
key to series is modelled as an insertion-ordered association list. -/
structure HPIdata where
  source : String
  geoLevel : String
  series : List (String × HPIseries)
  deriving DecidableEq

/-- lookupSeries models Go map indexing `hd.series[geo]` on the association
list. -/
def lookupSeries : List (String × HPIseries) → String → Option HPIseries
  | [], _ => none
  | (k, v) :: rest, g => if k = g then some v else lookupSeries rest g

/-- Geo returns the house price data for location geo. -/
def HPIdata.Geo (hd : HPIdata) (geo : String) : GoRes HPIseries :=
  match lookupSeries hd.series geo with
  | none => .err (.geoNotFound geo)
  | some h => .ok h

/-- Index returns the house price index for location geo at date dt,
delegating to the keyed series. -/
def HPIdata.Index (hd : HPIdata) (geo : String) (dt : Int) : GoRes ℚ :=
  match HPIdata.Geo hd geo with
  | .fatal => .fatal
  | .err e => .err e
  | .ok s => HPIseries.Index s dt

/-- appendEach is the loop body of HPIdata.Append: the receiver's series are
visited in order; each is extended with the matching series of ta, and the
loop returns at the first failure, leaving the remaining entries (and the
already-extended ones) as they are at that moment. -/
def appendEach (ta : HPIdata) : List (String × HPIseries) →
    List (String × HPIseries) × GoRes Unit
  | [] => ([], .ok ())
  | (k, v) :: rest =>
    match HPIdata.Geo ta k with
    | .fatal => ((k, v) :: rest, .fatal)
    | .err _ => ((k, v) :: rest, .err (.geoNotFoundInAppend k))
    | .ok va =>
      match HPIseries.Append v va.dates va.indx with
      | .fatal => ((k, v) :: rest, .fatal)
      | .err e => ((k, v) :: rest, .err e)
      | .ok v2 =>
        let r := appendEach ta rest
        ((k, v2) :: r.1, r.2)

/-- Append appends ta to the existing HPIdata, series by series; the pair
returned is the receiver's state after the call together with the Go return
value.  Mutation already performed is kept when a later key fails. -/
def HPIdata.Append (hd ta : HPIdata) : HPIdata × GoRes Unit :=
  if hd.geoLevel ≠ ta.geoLevel then (hd, .err .geoLevelMismatch)
  else
    let r := appendEach ta hd.series
    ({ hd with series := r.1 }, r.2)

/-- bestLoop scans the positional (dataset, key) pairs in order, returning the
value and geo level of the first dataset whose lookup succeeds. -/
def bestLoop (dt : Int) : List (HPIdata × String) → GoRes (ℚ × String)
  | [] => .err .noMatch
  | (s, k) :: rest =>
    match HPIdata.Index s k dt with
    | .ok v => .ok (v, s.geoLevel)
    | .err _ => bestLoop dt rest
    | .fatal => .fatal

/-- Best looks through the HPI series returning the first one that has data
for the geo; keys and hpis are positionally paired and must have equal
non-zero length. -/
def Best (dt : Int) (keys : List String) (hpis : List HPIdata) :
    GoRes (ℚ × String) :=
  if keys.length ≠ hpis.length ∨ hpis.length = 0 then .err .invalidSeries
  else bestLoop dt (hpis.zip keys)

/-- digitsVal folds a run of decimal digits into a number, failing on any
non-digit character. -/
def digitsVal : List Char → Option Nat → Option Nat
  | _, none => none
  | [], some n => some n
  | c :: cs, some n =>
    if c.isDigit then digitsVal cs (some (10 * n + (c.toNat - 48))) else none

/-- parseInt10 models the Go standard library call
`strconv.ParseInt(s, 10, 64)`: an optional sign followed by at least one
decimal digit (64-bit overflow is out of scope for the verified properties). -/
def parseInt10 (s : String) : Option Int :=
  match s.toList with
  | '-' :: cs => if cs = [] then none else (digitsVal cs (some 0)).map fun n => -(n : Int)
  | '+' :: cs => if cs = [] then none else (digitsVal cs (some 0)).map fun n => (n : Int)
  | cs => if cs = [] then none else (digitsVal cs (some 0)).map fun n => (n : Int)

/-- splitDot splits a character list at the first dot, when present. -/
def splitDot : List Char → List Char × Option (List Char)
  | [] => ([], none)
  | '.' :: cs => ([], some cs)
  | c :: cs =>
    let r := splitDot cs
    (c :: r.1, r.2)

/-- parseFloat64 models the Go standard library call
`strconv.ParseFloat(s, 64)` on the plain decimal forms the FHFA sheets carry:
an optional sign, digits, and an optional fractional part; anything else
(including the empty cells of the published gaps) fails to parse. -/
def parseFloat64 (s : String) : Option ℚ :=
  let cs := s.toList
  let sign : ℚ := match cs with | '-' :: _ => -1 | _ => 1
  let cs2 := match cs with | '-' :: r => r | '+' :: r => r | r => r
  match splitDot cs2 with
  | (ip, none) =>
    if ip = [] then none
    else (digitsVal ip (some 0)).map fun n => sign * (n : ℚ)
  | (ip, some fp) =>
    if ip = [] ∧ fp = [] then none
    else
      match digitsVal ip (some 0), digitsVal fp (some 0) with
      | some a, some b => some (sign * ((a : ℚ) + (b : ℚ) / (10 : ℚ) ^ fp.length))
      | _, _ => none

/-- doRow converts row values to the fields required for a series entry.  From
the source: a year or quarter cell that fails to parse as an integer panics
(modelled as `none`); an index cell that fails to parse as a float returns the
sentinel `("", 0, 0)`, which the caller skips silently. -/
def doRow (row : List String) (offset : Nat) : Option (String × Int × ℚ) :=
  match row[0]? with
  | none => none
  | some geo =>
    match row[1 + offset]? with
    | none => none
    | some ys =>
      match parseInt10 ys with
      | none => none
      | some year =>
        match row[2 + offset]? with
        | none => none
        | some qs =>
          match parseInt10 qs with
          | none => none
          | some qtr =>
            match row[3 + offset]? with
            | none => none
            | some vs =>
              match parseFloat64 vs with
              | none => some ("", 0, 0)
              | some v => some (geo, 10 * year + qtr, v)

/-- validQ states the spec's validity invariant on a quarter code: the year
digit-group is at least 1960 and the quarter digit lies in [1, 4] (stated with
Euclidean division, which agrees with the source's truncated division on the
non-negative codes the invariant forces). -/
def validQ (dt : Int) : Prop :=
  1960 ≤ dt / 10 ∧ 1 ≤ dt % 10 ∧ dt % 10 ≤ 4

instance : DecidablePred validQ := fun dt => by
  unfold validQ
  infer_instance

/-- ordQ linearizes a quarter code to a count of quarters, used to state that
QtrDiff measures the quarter distance from the smaller to the larger code. -/
def ordQ (dt : Int) : Int :=
  4 * (dt / 10) + dt % 10

/-! ### Quarter arithmetic -/

theorem godiv_eq_ediv {d : Int} (hd : 0 ≤ d) : godiv d 10 = d / 10 :=
  Int.tdiv_eq_ediv hd (by norm_num)

theorem stepQtr_char {d : Int} (hd : 0 ≤ d) :
    stepQtr d = if d % 10 = 4 then d + 7 else d + 1 := by
  simp only [stepQtr, godiv, Int.tdiv_eq_ediv hd (by norm_num : (0 : Int) ≤ 10)]
  split_ifs <;> omega

theorem stepQtr_gt (d : Int) : d < stepQtr d := by
  simp only [stepQtr, godiv]
  split <;> omega

theorem validQ_nonneg {d : Int} (h : validQ d) : 0 ≤ d := by
  simp only [validQ] at h
  omega

theorem validQ_stepQtr {d : Int} (h : validQ d) : validQ (stepQtr d) := by
  have hd : 0 ≤ d := validQ_nonneg h
  rw [stepQtr_char hd]
  simp only [validQ] at h ⊢
  split_ifs <;> omega

theorem ordQ_stepQtr {d : Int} (h : validQ d) : ordQ (stepQtr d) = ordQ d + 1 := by
  have hd : 0 ≤ d := validQ_nonneg h
  rw [stepQtr_char hd]
  simp only [validQ] at h
  simp only [ordQ]
  split_ifs <;> omega

theorem QtrDiff_eq {a b : Int} (ha : 0 ≤ a) (hb : 0 ≤ b) :
    QtrDiff a b = if b < a then ordQ a - ordQ b else ordQ b - ordQ a := by
  simp only [QtrDiff, ordQ, godiv]
  by_cases hba : b < a
  · simp only [if_pos hba, Int.tdiv_eq_ediv hb (by norm_num : (0 : Int) ≤ 10),
      Int.tdiv_eq_ediv ha (by norm_num : (0 : Int) ≤ 10)]
    omega
  · simp only [if_neg hba, Int.tdiv_eq_ediv hb (by norm_num : (0 : Int) ≤ 10),
      Int.tdiv_eq_ediv ha (by norm_num : (0 : Int) ≤ 10)]
    omega

theorem QtrDiff_comm (a b : Int) : QtrDiff a b = QtrDiff b a := by
  simp only [QtrDiff, godiv]
  rcases lt_trichotomy a b with h | h | h
  · have h1 : ¬ b < a := by omega
    simp only [if_pos h, if_neg h1]
  · subst h
    simp
  · have h1 : ¬ a < b := by omega
    simp only [if_pos h, if_neg h1]

theorem QtrDiff_one_iff {a b : Int} (ha : validQ a) (hb : validQ b) :
    QtrDiff a b = 1 ↔ (b = stepQtr a ∨ a = stepQtr b) := by
  have ha0 := validQ_nonneg ha
  have hb0 := validQ_nonneg hb
  rw [QtrDiff_eq ha0 hb0, stepQtr_char ha0, stepQtr_char hb0]
  simp only [validQ] at ha hb
  simp only [ordQ]
  split_ifs <;> omega

theorem stepQtr_iterate {n : Nat} : ∀ {a b : Int}, validQ a → validQ b →
    ordQ b - ordQ a = n → stepQtr^[n] a = b := by
  induction n with
  | zero =>
    intro a b ha hb h
    simp only [Function.iterate_zero, id_eq]
    simp only [validQ] at ha hb
    simp only [ordQ] at h
    omega
  | succ n ih =>
    intro a b ha hb h
    rw [Function.iterate_succ_apply]
    apply ih (validQ_stepQtr ha) hb
    rw [ordQ_stepQtr ha]
    push_cast at h ⊢
    omega

theorem NextQtr_validQ {a : Int} (ha : validQ a) : NextQtr a = some (stepQtr a) := by
  have ha0 := validQ_nonneg ha
  rw [stepQtr_char ha0]
  simp only [NextQtr, godiv, Int.tdiv_eq_ediv ha0 (by norm_num : (0 : Int) ≤ 10)]
  have ha2 := ha
  simp only [validQ] at ha2
  rw [if_neg (by omega)]
  split_ifs <;> exact congrArg some (by omega)

/-- C8: for every pair of valid YearQuarter codes a and b, QtrDiff is
order-independent and non-negative, iterating the quarter successor
QtrDiff-many times carries the smaller code to the larger one, and
QtrDiff between a valid code and its successor (which is what NextQtr
returns on a valid code) is 1. -/
theorem c8_qtrdiff_spec (a b : Int) (ha : validQ a) (hb : validQ b) :
    QtrDiff a b = QtrDiff b a
    ∧ 0 ≤ QtrDiff a b
    ∧ stepQtr^[(QtrDiff a b).toNat] (min a b) = max a b
    ∧ QtrDiff a (stepQtr a) = 1
    ∧ NextQtr a = some (stepQtr a) := by
  have ha0 := validQ_nonneg ha
  have hb0 := validQ_nonneg hb
  have hnn : 0 ≤ QtrDiff a b := by
    rw [QtrDiff_eq ha0 hb0]
    have ha2 := ha
    have hb2 := hb
    simp only [validQ] at ha2 hb2
    simp only [ordQ]
    split_ifs <;> omega
  refine ⟨QtrDiff_comm a b, hnn, ?_, ?_, NextQtr_validQ ha⟩
  · rcases le_total a b with hab | hab
    · rw [min_eq_left hab, max_eq_right hab]
      apply stepQtr_iterate ha hb
      have hD : QtrDiff a b = ordQ b - ordQ a := by
        rw [QtrDiff_eq ha0 hb0, if_neg (by omega)]
      rw [← hD, Int.toNat_of_nonneg hnn]
    · rw [min_eq_right hab, max_eq_left hab]
      apply stepQtr_iterate hb ha
      have hD : QtrDiff a b = ordQ a - ordQ b := by
        rcases eq_or_lt_of_le hab with he | hlt
        · rw [he, QtrDiff_eq ha0 ha0, if_neg (by omega)]
        · rw [QtrDiff_eq ha0 hb0, if_pos hlt]
      rw [← hD, Int.toNat_of_nonneg hnn]
  · exact (QtrDiff_one_iff ha (validQ_stepQtr ha)).mpr (Or.inl rfl)

/-- C8 witness: the C8 theorem instantiated at the concrete valid pair
(20033, 20041). -/
theorem c8_qtrdiff_spec_witness :
    QtrDiff 20033 20041 = QtrDiff 20041 20033
    ∧ 0 ≤ QtrDiff 20033 20041
    ∧ stepQtr^[(QtrDiff 20033 20041).toNat] (min 20033 20041) = max 20033 20041
    ∧ QtrDiff 20033 (stepQtr 20033) = 1
    ∧ NextQtr 20033 = some (stepQtr 20033) :=
  c8_qtrdiff_spec 20033 20041 (by decide) (by decide)

/-- C7 counterexample: the year 2061 lies outside the claimed legal range
[1960, 2060], yet NextQtr on 20611 returns 20612 normally instead of failing
fatally: the source checks no upper bound on the year. -/
theorem c7_nextqtr_counterexample :
    NextQtr 20611 = some 20612 ∧ (2060 : Int) < godiv 20611 10 := by
  decide

/-- C7 amended: NextQtr advances any code with year at least 1960 and quarter
in [1, 4] by one quarter (rolling quarter 4 to quarter 1 of year + 1), and
fails fatally exactly when the year is below 1960 or the quarter is outside
[1, 4]; there is no upper bound on the year. -/
theorem c7_nextqtr_amended (yr q : Int) (hyr : 0 ≤ yr) (hq : 0 ≤ q) (hq9 : q ≤ 9) :
    NextQtr (10 * yr + q) =
      if 1960 ≤ yr ∧ 1 ≤ q ∧ q ≤ 4 then
        some (if q = 4 then 10 * (yr + 1) + 1 else 10 * yr + (q + 1))
      else none := by
  have h0 : (0 : Int) ≤ 10 * yr + q := by omega
  simp only [NextQtr, godiv, Int.tdiv_eq_ediv h0 (by norm_num : (0 : Int) ≤ 10)]
  have hdiv : (10 * yr + q) / 10 = yr := by omega
  rw [hdiv]
  split_ifs <;> first | rfl | (exact congrArg some (by omega)) | (exfalso; omega)

/-- C7 witness: the amended C7 theorem instantiated at year 2003, quarter 4,
which rolls over to 2004 quarter 1. -/
theorem c7_nextqtr_amended_witness :
    NextQtr (10 * 2003 + 4) =
      if (1960 : Int) ≤ 2003 ∧ (1 : Int) ≤ 4 ∧ (4 : Int) ≤ 4 then
        some (if (4 : Int) = 4 then 10 * (2003 + 1) + 1 else 10 * 2003 + (4 + 1))
      else none :=
  c7_nextqtr_amended 2003 4 (by norm_num) (by norm_num) (by norm_num)

/-- C4 counterexample: the two-element sequence [20012, 20011] steps one
quarter backward (a reversal), yet QtrsOK accepts it, because QtrDiff
normalizes orientation; so QtrsOK is not "each adjacent pair differs by
exactly one forward quarter". -/
theorem c4_qtrsok_counterexample :
    QtrsOK [20012, 20011] = true
    ∧ 20011 ≠ stepQtr 20012
    ∧ (20011 : Int) < 20012 := by
  decide

/-- C4 amended: on a sequence of valid YearQuarter codes, QtrsOK returns true
exactly when every adjacent pair is one quarter apart in either direction
(forward or backward); in particular it accepts NextQtr-generated sequences
and rejects duplicates, but it also accepts one-quarter reversals. -/
theorem c4_qtrsok_amended (l : List Int) (hv : ∀ d ∈ l, validQ d) :
    QtrsOK l = true ↔ List.Chain' (fun a b => b = stepQtr a ∨ a = stepQtr b) l := by
  induction l with
  | nil => simp [QtrsOK]
  | cons a t ih =>
    cases t with
    | nil => simp [QtrsOK]
    | cons b rest =>
      have hva : validQ a := hv a (by simp)
      have hvb : validQ b := hv b (by simp)
      have hrest : ∀ d ∈ b :: rest, validQ d := fun d hd => hv d (List.mem_cons_of_mem a hd)
      simp only [QtrsOK, List.chain'_cons]
      rw [← QtrDiff_one_iff hva hvb]
      by_cases hd : QtrDiff a b = 1
      · rw [if_neg (by simp [hd])]
        rw [ih hrest]
        simp [hd]
      · rw [if_pos hd]
        simp [hd]

/-- C4 witness: the amended C4 theorem instantiated at the concrete valid
sequence [20033, 20034]. -/
theorem c4_qtrsok_amended_witness :
    QtrsOK [20033, 20034] = true ↔
      List.Chain' (fun a b => b = stepQtr a ∨ a = stepQtr b) [20033, 20034] :=
  c4_qtrsok_amended [20033, 20034] (by decide)

/-! ### Series append, copy, and empty-series behavior -/

theorem GoRes.isErr_eq_true {α : Type} {r : GoRes α} :
    r.isErr = true ↔ ∃ e, r = .err e := by
  cases r <;> simp [GoRes.isErr]

theorem getI?_cons_zero {α : Type} (a : α) (t : List α) :
    getI? (a :: t) 0 = some a := rfl

/-- C1 counterexample: starting from a one-element series anchored at 20011, a
first contiguous append of 20012 succeeds; a second append of 20013 — which is
exactly one quarter after the new last stored date 20012 and internally
monotone — is rejected, because the source validates against the unchanged
anchor lastDt = 20011, not against the last element currently stored. -/
theorem c1_append_counterexample :
    HPIseries.Append ⟨"g", "g", [20011], [1], 20011, 1⟩ [20012] [2] =
      .ok ⟨"g", "g", [20011, 20012], [1, 2], 20011, 1⟩
    ∧ HPIseries.Append ⟨"g", "g", [20011, 20012], [1, 2], 20011, 1⟩ [20013] [3] =
      .err .datesDontIncrement
    ∧ 20013 = stepQtr 20012 := by
  decide

/-- C1 amended: Append succeeds and concatenates both sequences exactly when
the first new date is one quarter away (in either direction, QtrDiff being
orientation-normalized) from the last-anchor date recorded at construction —
which Append never updates, so a second Append is still validated against the
original anchor, not the new last stored date — and the new dates pass QtrsOK;
otherwise it fails with DiscontinuousAppend and leaves the series unchanged;
an empty newDates list is a fatal (panic) failure, not an error. -/
theorem c1_append_amended (h : HPIseries) (d0 : Int) (ds : List Int) (ix : List ℚ) :
    (QtrDiff d0 h.lastDt = 1 ∧ QtrsOK (d0 :: ds) = true →
      HPIseries.Append h (d0 :: ds) ix =
        .ok { h with dates := h.dates ++ d0 :: ds, indx := h.indx ++ ix })
    ∧ (¬ (QtrDiff d0 h.lastDt = 1 ∧ QtrsOK (d0 :: ds) = true) →
      HPIseries.Append h (d0 :: ds) ix = .err .datesDontIncrement)
    ∧ HPIseries.Append h [] ix = .fatal
    ∧ (∀ h2, HPIseries.Append h (d0 :: ds) ix = .ok h2 →
        h2.lastDt = h.lastDt ∧ h2.lastIndx = h.lastIndx) := by
  refine ⟨?_, ?_, rfl, ?_⟩
  · rintro ⟨h1, h2⟩
    simp only [HPIseries.Append, getI?_cons_zero]
    rw [if_neg (by simp [h1, h2])]
  · intro hn
    have hc : QtrDiff d0 h.lastDt ≠ 1 ∨ QtrsOK (d0 :: ds) = false := by
      by_cases hA : QtrDiff d0 h.lastDt = 1
      · right
        cases hB : QtrsOK (d0 :: ds) with
        | false => rfl
        | true => exact absurd ⟨hA, hB⟩ hn
      · exact Or.inl hA
    simp only [HPIseries.Append, getI?_cons_zero]
    rw [if_pos hc]
  · intro h2 he
    simp only [HPIseries.Append, getI?_cons_zero] at he
    by_cases hc : QtrDiff d0 h.lastDt ≠ 1 ∨ QtrsOK (d0 :: ds) = false
    · rw [if_pos hc] at he
      exact absurd he (by simp)
    · rw [if_neg hc] at he
      simp only [GoRes.ok.injEq] at he
      subst he
      exact ⟨rfl, rfl⟩

/-- C1 amended witness: the success conjunct of the amended C1 theorem
instantiated at a concrete contiguous one-element append. -/
theorem c1_append_amended_witness :
    HPIseries.Append ⟨"g", "g", [20011], [1], 20011, 1⟩ [20012] [2] =
      .ok ⟨"g", "g", [20011, 20012], [1, 2], 20011, 1⟩ :=
  (c1_append_amended ⟨"g", "g", [20011], [1], 20011, 1⟩ 20012 [] [2]).1 (by decide)

/-- C6 code bug: on a concrete two-element series, Copy returns a series with
empty date and value arrays (Data copies into the nil zero-valued result
slices, so the builtin copy transfers zero elements), while keeping the scalar
fields; the doc comments say Copy returns a copy of h and Data returns the
data. -/
theorem c6_copy_bug :
    (HPIseries.Copy ⟨"AK", "AK", [20011, 20012], [100, 101], 20012, 101⟩).dates = []
    ∧ (HPIseries.Copy ⟨"AK", "AK", [20011, 20012], [100, 101], 20012, 101⟩).indx = []
    ∧ (HPIseries.Copy ⟨"AK", "AK", [20011, 20012], [100, 101], 20012, 101⟩).geoName = "AK"
    ∧ ((⟨"AK", "AK", [20011, 20012], [100, 101], 20012, 101⟩ : HPIseries)).dates ≠ [] := by
  decide

/-- C9: on a series whose date array is empty, Index and Change are fatal
(the date-index computation reads the last element of the date array
unguarded), not the recoverable DateOutOfRange error result; the operations
are only safe when the series is non-empty. -/
theorem c9_empty_series_fatal (h : HPIseries) (hempty : h.dates = []) (dt dt2 : Int) :
    HPIseries.Index h dt = .fatal
    ∧ HPIseries.Change h dt dt2 = .fatal
    ∧ (HPIseries.Index h dt).isErr = false := by
  have hDI : HPIseries.DateIndex h dt = .fatal := by
    simp [HPIseries.DateIndex, hempty, getI?]
  refine ⟨?_, ?_, ?_⟩
  · simp [HPIseries.Index, hDI]
  · simp [HPIseries.Change, HPIseries.Index, hDI]
  · simp [HPIseries.Index, hDI, GoRes.isErr]

/-- C9 witness: the C9 theorem instantiated at a concrete empty series and the
concrete lookup dates 20011 and 20012. -/
theorem c9_empty_series_fatal_witness :
    HPIseries.Index ⟨"g", "g", [], [], 0, 0⟩ 20011 = .fatal
    ∧ HPIseries.Change ⟨"g", "g", [], [], 0, 0⟩ 20011 20012 = .fatal
    ∧ (HPIseries.Index ⟨"g", "g", [], [], 0, 0⟩ 20011).isErr = false :=
  c9_empty_series_fatal ⟨"g", "g", [], [], 0, 0⟩ rfl 20011 20012

/-- C10: dataset-level Append is not atomic: there is a pair of datasets for
which Append returns an error (a key of the receiver missing from the
argument) while a series of the receiver has already been permanently
extended; the receiver is not restored on error. -/
theorem c10_append_nonatomic :
    ∃ hd ta : HPIdata,
      (HPIdata.Append hd ta).2 = .err (.geoNotFoundInAppend "B")
      ∧ (HPIdata.Append hd ta).1.series ≠ hd.series
      ∧ lookupSeries (HPIdata.Append hd ta).1.series "A" =
          some ⟨"A", "A", [20011, 20012], [1, 2], 20011, 1⟩
      ∧ lookupSeries hd.series "A" = some ⟨"A", "A", [20011], [1], 20011, 1⟩ := by
  refine ⟨⟨"s", "state",
      [("A", ⟨"A", "A", [20011], [1], 20011, 1⟩), ("B", ⟨"B", "B", [20011], [1], 20011, 1⟩)]⟩,
    ⟨"t", "state", [("A", ⟨"A", "A", [20012], [2], 20012, 2⟩)]⟩, ?_, ?_, ?_, ?_⟩ <;> decide

/-- C5 counterexample: a row whose year cell is non-numeric makes doRow fail
fatally (the source calls panic on a ParseInt error), while only a
non-numeric index cell is skipped silently via the sentinel row; so malformed
year or quarter fields are not treated as expected data gaps. -/
theorem c5_dorow_counterexample :
    doRow ["AK", "bad", "1", "100.5"] 0 = none
    ∧ doRow ["AK", "2003", "1", ""] 0 = some ("", 0, 0)
    ∧ (doRow ["AK", "2003", "1", "100.5"] 0).map (fun t => (t.1, t.2.1)) =
        some ("AK", 20031) := by
  decide

/-- C5 amended: for a row exposing its four relevant cells, doRow panics when
the year or the quarter cell fails integer parsing; it returns the silently
skipped sentinel ("", 0, 0) when both parse but the index cell fails float
parsing; and it returns the typed tuple when all three parse. -/
theorem c5_dorow_amended (row : List String) (offset : Nat)
    (geo ys qs vs : String)
    (h0 : row[0]? = some geo) (h1 : row[1 + offset]? = some ys)
    (h2 : row[2 + offset]? = some qs) (h3 : row[3 + offset]? = some vs) :
    (parseInt10 ys = none → doRow row offset = none)
    ∧ (∀ y, parseInt10 ys = some y → parseInt10 qs = none → doRow row offset = none)
    ∧ (∀ y q, parseInt10 ys = some y → parseInt10 qs = some q →
        parseFloat64 vs = none → doRow row offset = some ("", 0, 0))
    ∧ (∀ y q v, parseInt10 ys = some y → parseInt10 qs = some q →
        parseFloat64 vs = some v → doRow row offset = some (geo, 10 * y + q, v)) := by
  refine ⟨?_, ?_, ?_, ?_⟩
  · intro hy
    simp [doRow, h0, h1, hy]
  · intro y hy hq
    simp [doRow, h0, h1, h2, hy, hq]
  · intro y q hy hq hv
    simp [doRow, h0, h1, h2, h3, hy, hq, hv]
  · intro y q v hy hq hv
    simp [doRow, h0, h1, h2, h3, hy, hq, hv]

/-- C5 amended witness: the sentinel-skip conjunct of the amended C5 theorem
instantiated at a concrete row whose index cell is non-numeric. -/
theorem c5_dorow_amended_witness :
    doRow ["AK", "2003", "2", "x"] 0 = some ("", 0, 0) :=
  (c5_dorow_amended ["AK", "2003", "2", "x"] 0 "AK" "2003" "2" "x"
    rfl rfl rfl rfl).2.2.1 2003 2 (by decide) (by decide) (by decide)

/-! ### Best-match resolver -/

theorem bestLoop_first (dt : Int) :
    ∀ (ps : List (HPIdata × String)) (i : Fin ps.length),
      (∀ j : Fin ps.length, j.val < i.val →
        (HPIdata.Index (ps.get j).1 (ps.get j).2 dt).isErr = true) →
      ∀ v : ℚ, HPIdata.Index (ps.get i).1 (ps.get i).2 dt = .ok v →
      bestLoop dt ps = .ok (v, (ps.get i).1.geoLevel) := by
  intro ps
  induction ps with
  | nil => exact fun i => i.elim0
  | cons p rest ih =>
    rintro ⟨iv, hiv⟩ hj v hv
    obtain ⟨s, k⟩ := p
    cases iv with
    | zero =>
      have hv2 : HPIdata.Index s k dt = GoRes.ok v := hv
      show bestLoop dt ((s, k) :: rest) = .ok (v, s.geoLevel)
      simp only [bestLoop, hv2]
    | succ n =>
      have hn : n < rest.length := by
        have := hiv
        simp only [List.length_cons] at this
        omega
      have h0 : (HPIdata.Index s k dt).isErr = true :=
        hj ⟨0, by simp⟩ (Nat.succ_pos n)
      obtain ⟨e, he⟩ := (GoRes.isErr_eq_true).mp h0
      have hv2 : HPIdata.Index (rest.get ⟨n, hn⟩).1 (rest.get ⟨n, hn⟩).2 dt =
          GoRes.ok v := hv
      show bestLoop dt ((s, k) :: rest) = .ok (v, (rest.get ⟨n, hn⟩).1.geoLevel)
      simp only [bestLoop, he]
      exact ih ⟨n, hn⟩
        (fun j hjn =>
          hj ⟨j.val + 1, by have := j.isLt; simp only [List.length_cons]; omega⟩
            (Nat.succ_lt_succ hjn))
        v hv2

theorem bestLoop_all_err (dt : Int) :
    ∀ ps : List (HPIdata × String),
      (∀ j : Fin ps.length, (HPIdata.Index (ps.get j).1 (ps.get j).2 dt).isErr = true) →
      bestLoop dt ps = .err .noMatch := by
  intro ps
  induction ps with
  | nil => intro _; rfl
  | cons p rest ih =>
    intro hj
    obtain ⟨s, k⟩ := p
    have h0 : (HPIdata.Index s k dt).isErr = true := hj ⟨0, by simp⟩
    obtain ⟨e, he⟩ := (GoRes.isErr_eq_true).mp h0
    show bestLoop dt ((s, k) :: rest) = .err .noMatch
    simp only [bestLoop, he]
    exact ih fun j =>
      hj ⟨j.val + 1, by have := j.isLt; simp only [List.length_cons]; omega⟩

/-- C3: Best fails with InvalidArguments exactly when keys and hpis have
unequal lengths or are empty; with equal non-zero lengths it scans the
positional pairs in order, returns the looked-up value together with the
geo-level label of the first dataset whose lookup succeeds (all earlier pairs
having failed with a recoverable error), and fails with NoMatch when the
lookup of every pair fails. -/
theorem c3_best_spec (dt : Int) (keys : List String) (hpis : List HPIdata) :
    (keys.length ≠ hpis.length ∨ hpis.length = 0 →
      Best dt keys hpis = .err .invalidSeries)
    ∧ (keys.length = hpis.length → hpis.length ≠ 0 →
      (∀ i : Fin (hpis.zip keys).length,
        (∀ j : Fin (hpis.zip keys).length, j.val < i.val →
          (HPIdata.Index ((hpis.zip keys).get j).1 ((hpis.zip keys).get j).2 dt).isErr
            = true) →
        ∀ v : ℚ,
          HPIdata.Index ((hpis.zip keys).get i).1 ((hpis.zip keys).get i).2 dt = .ok v →
          Best dt keys hpis = .ok (v, ((hpis.zip keys).get i).1.geoLevel))
      ∧ ((∀ j : Fin (hpis.zip keys).length,
          (HPIdata.Index ((hpis.zip keys).get j).1 ((hpis.zip keys).get j).2 dt).isErr
            = true) →
        Best dt keys hpis = .err .noMatch)) := by
  constructor
  · intro hbad
    simp only [Best]
    rw [if_pos hbad]
  · intro hlen hnz
    have hguard : ¬ (keys.length ≠ hpis.length ∨ hpis.length = 0) := by omega
    constructor
    · intro i hj v hv
      simp only [Best]
      rw [if_neg hguard]
      exact bestLoop_first dt (hpis.zip keys) i hj v hv
    · intro hall
      simp only [Best]
      rw [if_neg hguard]
      exact bestLoop_all_err dt (hpis.zip keys) hall

/-- C3 witness: the first-success conjunct of the C3 theorem instantiated at a
concrete two-dataset cascade whose first (metro) lookup fails on an unknown
key and whose second (nonmetro) lookup succeeds. -/
theorem c3_best_spec_witness :
    Best 20011 ["X", "B"]
      [⟨"s1", "metro", [("A", ⟨"A", "A", [20011], [4], 20011, 4⟩)]⟩,
       ⟨"s2", "nonmetro", [("B", ⟨"B", "B", [20011], [5], 20011, 5⟩)]⟩] =
      .ok (5, "nonmetro") :=
  ((c3_best_spec 20011 ["X", "B"]
      [⟨"s1", "metro", [("A", ⟨"A", "A", [20011], [4], 20011, 4⟩)]⟩,
       ⟨"s2", "nonmetro", [("B", ⟨"B", "B", [20011], [5], 20011, 5⟩)]⟩]).2
    (by decide) (by decide)).1 ⟨1, by decide⟩ (by decide) 5 (by decide)

/-! ### Binary-search lookup -/

theorem getI?_natCast {α : Type} (xs : List α) (n : Nat) :
    getI? xs (n : Int) = xs.get? n := by
  unfold getI?
  rw [if_neg (by omega), Int.toNat_natCast]

theorem getI?_last {α : Type} (xs : List α) (hne : xs ≠ []) :
    getI? xs ((xs.length : Int) - 1) = some (xs.getLast hne) := by
  have hpos : 0 < xs.length := List.length_pos.mpr hne
  unfold getI?
  rw [if_neg (by omega)]
  have ht : ((xs.length : Int) - 1).toNat = xs.length - 1 := by omega
  rw [ht, List.get?_eq_get (by omega), List.getLast_eq_get]

theorem getI?_zero {α : Type} (xs : List α) (hne : xs ≠ []) :
    getI? xs 0 = some (xs.head hne) := by
  cases xs with
  | nil => exact absurd rfl hne
  | cons a t => rfl

theorem searchInts_lt_length {a : List Int} {x : Int} (hx : ∃ y ∈ a, x ≤ y) :
    searchInts a x < a.length := by
  apply List.findIdx_lt_length_of_exists
  obtain ⟨y, hy, hxy⟩ := hx
  exact ⟨y, hy, by simpa using hxy⟩

theorem searchInts_le {a : List Int} {x : Int} (hlt : searchInts a x < a.length) :
    x ≤ a.get ⟨searchInts a x, hlt⟩ := by
  have h2 : a.findIdx (fun v => decide (x ≤ v)) < a.length := hlt
  have h3 := @List.findIdx_get Int (fun v => decide (x ≤ v)) a h2
  show x ≤ a.get ⟨a.findIdx (fun v => decide (x ≤ v)), h2⟩
  simpa using h3

theorem searchInts_min {a : List Int} {x : Int} {j : Nat} (hj : j < searchInts a x)
    (hjl : j < a.length) : a.get ⟨j, hjl⟩ < x := by
  have h2 : j < a.findIdx (fun v => decide (x ≤ v)) := hj
  have h3 := List.not_of_lt_findIdx h2
  simp only [decide_eq_false_iff_not, not_le] at h3
  rw [List.get_eq_getElem]
  exact h3

/-- C2: on a non-empty series with quarter-contiguous (hence strictly
increasing) dates and parallel value array, Index returns the value stored at
dt when dt is stored; returns the value at the largest stored date below dt
when dt lies within range but is not stored; and fails with the
DateOutOfRange errors exactly when dt precedes the first stored date
(in particular for a date one quarter before it) or follows the last stored
date, with a lookup exactly at a stored position — the last one included —
succeeding. -/
theorem c2_lookup_spec (h : HPIseries) (hne : h.dates ≠ [])
    (hch : List.Chain' (fun a b => b = stepQtr a) h.dates)
    (hlen : h.indx.length = h.dates.length) (dt : Int) :
    (dt < h.dates.head hne → HPIseries.Index h dt = .err .dateTooSmall)
    ∧ (h.dates.getLast hne < dt → HPIseries.Index h dt = .err .dateTooLarge)
    ∧ (∀ i : Fin h.dates.length, h.dates.get i = dt →
        HPIseries.Index h dt = .ok (h.indx.get ⟨i.val, by rw [hlen]; exact i.isLt⟩))
    ∧ (h.dates.head hne ≤ dt → dt ≤ h.dates.getLast hne → dt ∉ h.dates →
        ∃ i : Fin h.dates.length, ∃ hi : i.val < h.indx.length,
          h.dates.get i < dt
          ∧ (∀ j : Fin h.dates.length, h.dates.get j < dt →
              h.dates.get j ≤ h.dates.get i)
          ∧ HPIseries.Index h dt = .ok (h.indx.get ⟨i.val, hi⟩))
    ∧ (∀ p : Int, stepQtr p = h.dates.head hne →
        HPIseries.Index h p = .err .dateTooSmall) := by
  have hsort : List.Pairwise (· < ·) h.dates :=
    List.chain'_iff_pairwise.mp
      (List.Chain'.imp (fun a b hab => by rw [hab]; exact stepQtr_gt a) hch)
  have hmono : ∀ i j : Fin h.dates.length, i.val < j.val →
      h.dates.get i < h.dates.get j := by
    rw [List.pairwise_iff_getElem] at hsort
    intro i j hij
    have := hsort i.val j.val i.isLt j.isLt hij
    simpa [List.get_eq_getElem] using this
  have hmle : ∀ i j : Fin h.dates.length, i.val ≤ j.val →
      h.dates.get i ≤ h.dates.get j := by
    intro i j hij
    rcases Nat.lt_or_ge i.val j.val with hlt | hge
    · exact le_of_lt (hmono i j hlt)
    · have hij2 : i = j := Fin.ext (by omega)
      rw [hij2]
  have hpos : 0 < h.dates.length := List.length_pos.mpr hne
  have hheadget : h.dates.head hne = h.dates.get ⟨0, hpos⟩ := by
    rw [List.head_eq_getElem_zero hne, List.get_eq_getElem]
  have hlastget : h.dates.getLast hne = h.dates.get ⟨h.dates.length - 1, by omega⟩ := by
    rw [List.getLast_eq_getElem, List.get_eq_getElem]
  have hL : getI? h.dates ((h.dates.length : Int) - 1) = some (h.dates.getLast hne) :=
    getI?_last _ hne
  have hZ : getI? h.dates 0 = some (h.dates.head hne) := getI?_zero _ hne
  have hfl : h.dates.head hne ≤ h.dates.getLast hne := by
    rw [hheadget, hlastget]
    exact hmle _ _ (Nat.zero_le _)
  have caseSmall : ∀ d : Int, d < h.dates.head hne →
      HPIseries.Index h d = .err .dateTooSmall := by
    intro d hd
    have hDI : HPIseries.DateIndex h d = .err .dateTooSmall := by
      simp only [HPIseries.DateIndex, hL, hZ]
      rw [if_neg (by omega), if_pos hd]
    simp [HPIseries.Index, hDI]
  have caseLarge : ∀ d : Int, h.dates.getLast hne < d →
      HPIseries.Index h d = .err .dateTooLarge := by
    intro d hd
    have hDI : HPIseries.DateIndex h d = .err .dateTooLarge := by
      simp only [HPIseries.DateIndex, hL]
      rw [if_pos hd]
    simp [HPIseries.Index, hDI]
  refine ⟨caseSmall dt, caseLarge dt, ?_, ?_,
    fun p hp => caseSmall p (by rw [← hp]; exact stepQtr_gt p)⟩
  · intro i hi
    have hfirst : h.dates.head hne ≤ dt := by
      rw [hheadget, ← hi]
      exact hmle _ _ (Nat.zero_le _)
    have hlast2 : dt ≤ h.dates.getLast hne := by
      rw [hlastget, ← hi]
      exact hmle _ _ (Nat.le_pred_of_lt i.isLt)
    have hrlt : searchInts h.dates dt < h.dates.length :=
      searchInts_lt_length ⟨h.dates.getLast hne, List.getLast_mem hne, hlast2⟩
    have hrge : dt ≤ h.dates.get ⟨searchInts h.dates dt, hrlt⟩ := searchInts_le hrlt
    have hir : i.val = searchInts h.dates dt := by
      rcases lt_trichotomy i.val (searchInts h.dates dt) with hlt | he | hgt
      · exfalso
        have hlt2 := searchInts_min hlt i.isLt
        have heq2 : h.dates.get ⟨i.val, i.isLt⟩ = h.dates.get i := rfl
        rw [heq2, hi] at hlt2
        exact lt_irrefl dt hlt2
      · exact he
      · exfalso
        have hgt2 := hmono ⟨searchInts h.dates dt, hrlt⟩ i hgt
        rw [hi] at hgt2
        exact absurd (lt_of_le_of_lt hrge hgt2) (lt_irrefl dt)
    have hveq : h.dates.get ⟨searchInts h.dates dt, hrlt⟩ = dt := by
      have he3 : (⟨searchInts h.dates dt, hrlt⟩ : Fin h.dates.length) = i :=
        Fin.ext hir.symm
      rw [he3, hi]
    have hrI : getI? h.dates ((searchInts h.dates dt : Nat) : Int) =
        some (h.dates.get ⟨searchInts h.dates dt, hrlt⟩) := by
      rw [getI?_natCast, List.get?_eq_get hrlt]
    have hDI : HPIseries.DateIndex h dt = .ok ((searchInts h.dates dt : Nat) : Int) := by
      simp only [HPIseries.DateIndex, hL, hZ, hrI]
      rw [if_neg (by omega), if_neg (by omega), if_neg (not_not_intro hveq)]
    have hiI : getI? h.indx ((searchInts h.dates dt : Nat) : Int) =
        some (h.indx.get ⟨searchInts h.dates dt, by rw [hlen]; exact hrlt⟩) := by
      rw [getI?_natCast, List.get?_eq_get (by rw [hlen]; exact hrlt)]
    have hIx : HPIseries.Index h dt =
        .ok (h.indx.get ⟨searchInts h.dates dt, by rw [hlen]; exact hrlt⟩) := by
      simp only [HPIseries.Index, hDI, hiI]
    rw [hIx]
    congr 1
    exact congrArg h.indx.get (Fin.ext hir.symm)
  · intro hfirst hlast2 hnm
    have hrlt : searchInts h.dates dt < h.dates.length :=
      searchInts_lt_length ⟨h.dates.getLast hne, List.getLast_mem hne, hlast2⟩
    have hrge : dt ≤ h.dates.get ⟨searchInts h.dates dt, hrlt⟩ := searchInts_le hrlt
    have hvne : h.dates.get ⟨searchInts h.dates dt, hrlt⟩ ≠ dt := by
      intro hcon
      exact hnm (hcon ▸ List.get_mem h.dates _ _)
    have hr0 : searchInts h.dates dt ≠ 0 := by
      intro h0
      apply hvne
      apply le_antisymm
      · have hgg : h.dates.get ⟨searchInts h.dates dt, hrlt⟩ = h.dates.get ⟨0, hpos⟩ := by
          congr 1
          exact Fin.ext h0
        rw [hgg, ← hheadget]
        exact hfirst
      · exact hrge
    have hr1 : 1 ≤ searchInts h.dates dt := Nat.one_le_iff_ne_zero.mpr hr0
    have hsub : searchInts h.dates dt - 1 < h.dates.length := by omega
    have hprev : h.dates.get ⟨searchInts h.dates dt - 1, hsub⟩ < dt :=
      searchInts_min (by omega) hsub
    refine ⟨⟨searchInts h.dates dt - 1, hsub⟩, by rw [hlen]; omega, hprev, ?_, ?_⟩
    · intro j hj
      rcases Nat.lt_or_ge j.val (searchInts h.dates dt) with hlt | hge
      · exact hmle _ _ (Nat.le_pred_of_lt hlt)
      · exfalso
        have hs1 : h.dates.get ⟨searchInts h.dates dt, hrlt⟩ ≤ h.dates.get j :=
          hmle _ j hge
        have hs2 : dt ≤ h.dates.get j := le_trans hrge hs1
        omega
    · have hrI : getI? h.dates ((searchInts h.dates dt : Nat) : Int) =
          some (h.dates.get ⟨searchInts h.dates dt, hrlt⟩) := by
        rw [getI?_natCast, List.get?_eq_get hrlt]
      have hDI : HPIseries.DateIndex h dt =
          .ok (((searchInts h.dates dt : Nat) : Int) - 1) := by
        simp only [HPIseries.DateIndex, hL, hZ, hrI]
        rw [if_neg (by omega), if_neg (by omega), if_pos hvne]
      have hcast : ((searchInts h.dates dt : Nat) : Int) - 1 =
          ((searchInts h.dates dt - 1 : Nat) : Int) := by omega
      have hiI : getI? h.indx ((searchInts h.dates dt - 1 : Nat) : Int) =
          some (h.indx.get ⟨searchInts h.dates dt - 1, by rw [hlen]; omega⟩) := by
        rw [getI?_natCast, List.get?_eq_get (by rw [hlen]; omega)]
      simp only [HPIseries.Index, hDI, hcast, hiI]

/-- C2 witness: the too-large error conjunct of the C2 theorem instantiated
at a concrete contiguous three-quarter series and a query one quarter past its
last stored date. -/
theorem c2_lookup_spec_witness :
    HPIseries.Index ⟨"CA", "CA", [20011, 20012, 20013], [10, 11, 12], 20013, 12⟩ 20014 =
      .err .dateTooLarge :=
  (c2_lookup_spec ⟨"CA", "CA", [20011, 20012, 20013], [10, 11, 12], 20013, 12⟩
    (by decide)
    (by
      show List.Chain' (fun a b => b = stepQtr a) [20011, 20012, 20013]
      simp only [List.chain'_cons, List.chain'_singleton, and_true]
      decide)
    (by decide) 20014).2.1 (by decide)
